import Mathlib

/-!
Verification development for the release orchestrator in
`.github/publisher/src/main.rs` of the sway-standards repository.

The orchestrator discovers package directories, parses each `Forc.toml`
manifest, builds a dependency graph (an edge per local *path* dependency,
pointing from the dependency to its dependent), computes the set of packages
affected by a set of seed packages (forward reachability), topologically
sorts the whole graph, filters the sorted order down to the affected set,
then publishes each package in order, rewriting dependents' manifests
(replacing the `path` entry of an inline-table dependency with a `version`
entry) after each publish step.

The embedding below mirrors `main.rs` function by function:
  * `Manifest`, `DepVal` model a parsed `toml_edit::DocumentMut` at the
    granularity the program inspects: project name, project version, the
    `[dependencies]` table, and an opaque `rest` field standing for all
    remaining text (comments, formatting, unrelated sections) which the
    program's structural edits never touch.
  * `updateDeps` / `updateOne` / `updateDependents` model
    `update_dependents` (main.rs lines 174-203).
  * `mkNodes` / `mkNodeMap` / `edgesFromDeps` / `buildEdges` model graph
    construction (main.rs lines 29-69).  `buildEdges` returns `none` when
    the program would abort: `node_map[project_name]` at line 58 indexes a
    map keyed by *declared* names with a *directory* name.
  * `reachSet` / `affectedNames` model the per-seed `petgraph::visit::Dfs`
    traversal (main.rs lines 72-87) by the traversal's contract: it visits
    exactly the nodes reachable from the start node, the start included.
  * `toposort` models `petgraph::algo::toposort` (main.rs line 94) by its
    documented contract: a topological order of every node of the graph on
    success, and on failure an error carrying one node of a cycle.
  * `planPublish` models the side-effect-free phase of `main` (lines
    29-112), `runLoop` the publish loop (lines 118-154) with the external
    `forc publish` subprocess abstracted as an outcome oracle, and
    `runOrchestrator` their composition.
-/

/-- Substring test, modelling Rust's `str::contains` used at main.rs
line 135 to classify a failed publish as "already published". -/
def strContains (s pat : String) : Bool :=
  decide (pat.toList <:+: s.toList)

/-- The value of one dependency declaration in a `[dependencies]` table,
at the granularity `main.rs` distinguishes: only inline tables
(`dep = { path = "..", version = ".." }`) are inspected by
`as_inline_table` / `as_inline_table_mut`; a `[dependencies.dep]`
section (non-inline table) and a plain string (`dep = "1.0.0"`)
are ignored by both the graph builder and the updater. -/
inductive DepVal
  | inlineTable (entries : List (String × String))
  | table (entries : List (String × String))
  | str (s : String)
deriving DecidableEq, Repr

/-- A parsed `Forc.toml` as the program sees it; `rest` stands for all
content the program never inspects or edits (comments, formatting,
unrelated sections), preserved verbatim by `toml_edit`'s structural
edits. `dependencies = none` models an absent `[dependencies]` table. -/
structure Manifest where
  projectName : String
  projectVersion : String
  dependencies : Option (List (String × DepVal))
  rest : String
deriving DecidableEq, Repr

/-- First-match association-list lookup, modelling `HashMap`/`BTreeMap`
`get` and `toml_edit` table key lookup (keys are unique in those maps,
so first-match semantics coincide with map semantics). -/
def lookupKey {β : Type} (k : String) : List (String × β) → Option β
  | [] => none
  | e :: rest => if e.1 = k then some e.2 else lookupKey k rest

/-- `toml_edit::InlineTable::remove`: drop the entry with the given key. -/
def itRemove (entries : List (String × String)) (k : String) : List (String × String) :=
  entries.filter (fun e => e.1 ≠ k)

/-- `toml_edit::InlineTable::insert`: replace the value in place when the
key is present, otherwise append the pair at the end. -/
def itInsert (entries : List (String × String)) (k v : String) : List (String × String) :=
  if ∃ e ∈ entries, e.1 = k then
    entries.map (fun e => if e.1 = k then (k, v) else e)
  else entries ++ [(k, v)]

/-- The edit applied to the published package's dependency entry at
main.rs lines 188-189: `remove("path")` then `insert("version", v)`. -/
def pathToVersion (entries : List (String × String)) (v : String) : List (String × String) :=
  itInsert (itRemove entries "path") "version" v

/-- Body of the `update_dependents` loop acting on one `[dependencies]`
table (main.rs lines 181-193): find the entry named after the published
package (`get_mut` — first match), and when it is an inline table that
has a `path` key, rewrite it with `pathToVersion`; the returned Bool is
the `dirty` flag. -/
def updateDeps (p v : String) : List (String × DepVal) → List (String × DepVal) × Bool
  | [] => ([], false)
  | (k, dv) :: rest =>
    if k = p then
      match dv with
      | DepVal.inlineTable entries =>
        if ∃ e ∈ entries, e.1 = "path" then
          ((k, DepVal.inlineTable (pathToVersion entries v)) :: rest, true)
        else ((k, dv) :: rest, false)
      | _ => ((k, dv) :: rest, false)
    else
      let r := updateDeps p v rest
      ((k, dv) :: r.1, r.2)

/-- `update_dependents` acting on one manifest: when the manifest has no
`[dependencies]` table, `data["dependencies"].get_mut(p)` finds nothing
and the manifest is untouched; otherwise the table is rewritten by
`updateDeps`.  Returns the new manifest and the `dirty` flag. -/
def updateOne (p v : String) (m : Manifest) : Manifest × Bool :=
  match m.dependencies with
  | none => (m, false)
  | some deps =>
    let r := updateDeps p v deps
    ({ m with dependencies := some r.1 }, r.2)

/-- `update_dependents` (main.rs lines 174-203): rewrite every package's
manifest in the map, and write each dirty manifest to disk immediately.
Returns the new map together with the list of performed writes
(directory name, written content), in iteration order. -/
def updateDependents (p v : String) (pkgs : List (String × Manifest)) :
    List (String × Manifest) × List (String × Manifest) :=
  (pkgs.map (fun e => (e.1, (updateOne p v e.2).1)),
   pkgs.filterMap (fun e =>
     if (updateOne p v e.2).2 then some (e.1, (updateOne p v e.2).1) else none))

/-- Whether a `[dependencies]` table declares a local-path dependency on
`p`: it has an entry named `p` that is an inline table carrying a
`path` key — exactly the condition under which `update_dependents`
edits (main.rs lines 181-191). -/
def depsHavePathOn (deps : List (String × DepVal)) (p : String) : Bool :=
  match lookupKey p deps with
  | some (DepVal.inlineTable entries) => decide (∃ e ∈ entries, e.1 = "path")
  | _ => false

/-- Whether a manifest declares a local-path dependency on `p`. -/
def hasPathDepOn (m : Manifest) (p : String) : Bool :=
  match m.dependencies with
  | none => false
  | some deps => depsHavePathOn deps p

example :
    updateDeps "a" "1.0.0" [("a", DepVal.inlineTable [("path", "../a")])] =
      ([("a", DepVal.inlineTable [("version", "1.0.0")])], true) := by decide

example :
    updateDeps "a" "2.0"
      [("x", DepVal.str "0.1"), ("a", DepVal.inlineTable [("path", "p"), ("version", "1.0")])] =
      ([("x", DepVal.str "0.1"), ("a", DepVal.inlineTable [("version", "2.0")])], true) := by
  decide

example :
    updateDeps "a" "2.0" [("a", DepVal.table [("path", "p")])] =
      ([("a", DepVal.table [("path", "p")])], false) := by decide

/-! ## Graph construction (main.rs lines 29-69) -/

/-- The graph's node weights: one node per discovered package, in
discovery order, weighted by the *declared* name read from
`forc_toml["project"]["name"]` (main.rs lines 46-51). -/
def mkNodes (pkgs : List (String × Manifest)) : List String :=
  pkgs.map (fun e => e.2.projectName)

/-- `node_map.insert` accumulation: `HashMap` lookup sees the latest
insert, which first-match lookup over a reversed-cons list models. -/
def mkNodeMapAux : List String → Nat → List (String × Nat) → List (String × Nat)
  | [], _, m => m
  | s :: rest, i, m => mkNodeMapAux rest (i + 1) ((s, i) :: m)

/-- `node_map`: declared name → node index (main.rs line 52). -/
def mkNodeMap (pkgs : List (String × Manifest)) : List (String × Nat) :=
  mkNodeMapAux (mkNodes pkgs) 0 []

/-- Node weight of index `i`, modelling `graph[i]` (always applied to
valid indices in `main`). -/
def nodeName (nodes : List String) (i : Nat) : String :=
  nodes.getD i ""

/-- Edges contributed by one `[dependencies]` table (main.rs lines
59-66): for each entry that is an inline table with a `path` key and
whose name is a known node, an edge from the dependency's node to the
dependent's node. -/
def edgesFromDeps (nm : List (String × Nat)) (fromIdx : Nat)
    (deps : List (String × DepVal)) : List (Nat × Nat) :=
  deps.filterMap (fun e =>
    match e.2 with
    | DepVal.inlineTable entries =>
      if ∃ kv ∈ entries, kv.1 = "path" then
        match lookupKey e.1 nm with
        | some toIdx => some (toIdx, fromIdx)
        | none => none
      else none
    | _ => none)

/-- Edge construction over all packages (main.rs lines 56-69).  The
dependent's node is looked up as `node_map[project_name]` where
`project_name` is the *directory* name but `node_map` is keyed by
*declared* names; a missing key makes the Rust `HashMap` index panic,
which `none` models.  The lookup only happens for packages that have a
`[dependencies]` table. -/
def buildEdges (nm : List (String × Nat)) : List (String × Manifest) → Option (List (Nat × Nat))
  | [] => some []
  | (dn, m) :: rest =>
    match m.dependencies with
    | none => buildEdges nm rest
    | some deps =>
      match lookupKey dn nm with
      | none => none
      | some fromIdx =>
        (buildEdges nm rest).map (fun es => edgesFromDeps nm fromIdx deps ++ es)

/-- The edge relation of the dependency graph: `(u, v) ∈ edges` means
package `u` is a dependency of package `v`, so `u` must publish first. -/
def edgeRel (edges : List (Nat × Nat)) (u v : Nat) : Prop :=
  (u, v) ∈ edges

instance (edges : List (Nat × Nat)) (u v : Nat) : Decidable (edgeRel edges u v) := by
  unfold edgeRel; infer_instance

/-! ## Forward reachability (main.rs lines 72-87)

`petgraph::visit::Dfs` from a start node visits exactly the nodes
reachable from it along directed edges, the start included.  The model
computes that set as a monotone fixpoint iteration, which is proved
below to coincide with `Relation.ReflTransGen (edgeRel edges)`. -/

/-- One expansion step: add every target of an edge whose source is
already in the set. -/
def stepSet (edges : List (Nat × Nat)) (S : Finset Nat) : Finset Nat :=
  S ∪ ((edges.filter (fun e => decide (e.1 ∈ S))).map Prod.snd).toFinset

/-- Iterate `stepSet` to a fixpoint, with enough fuel to be sure to
reach it. -/
def reachAux (edges : List (Nat × Nat)) : Nat → Finset Nat → Finset Nat
  | 0, S => S
  | fuel + 1, S =>
    if stepSet edges S ⊆ S then S else reachAux edges fuel (stepSet edges S)

/-- The set of nodes the DFS from `s` visits. -/
def reachSet (edges : List (Nat × Nat)) (s : Nat) : Finset Nat :=
  reachAux edges (edges.length + 1) {s}

/-- `to_publish_names` (main.rs lines 72-87): for each seed, skip it if
unknown, otherwise add the declared names of every node the DFS from
the seed's node visits. -/
def affectedNames (nm : List (String × Nat)) (nodes : List String)
    (edges : List (Nat × Nat)) (seeds : List String) : Finset String :=
  seeds.foldr (fun s acc =>
    match lookupKey s nm with
    | none => acc
    | some i => (reachSet edges i).image (fun j => nodeName nodes j) ∪ acc) ∅

/-! ## Topological sort (main.rs lines 94-107)

`petgraph::algo::toposort` is modelled by its documented contract: on
success it yields an order of *all* nodes in which every edge's source
precedes its target; on failure (the graph has a cycle) it reports one
node that participates in a cycle.  The model is a Kahn-style
elimination; when it gets stuck, every remaining node has an incoming
edge from a remaining node, and `cycVia` extracts a node that provably
lies on a cycle by following incoming edges until a repeat. -/

/-- Whether `v` has no incoming edge from a node still in `remaining`. -/
def noIncoming (edges : List (Nat × Nat)) (remaining : List Nat) (v : Nat) : Bool :=
  decide (¬ ∃ e ∈ edges, e.2 = v ∧ e.1 ∈ remaining)

/-- Pick one in-neighbour of `v` inside `remaining` (identity when none
exists, which cannot happen in a stuck state). -/
def stepBack (edges : List (Nat × Nat)) (remaining : List Nat) (v : Nat) : Nat :=
  match edges.find? (fun e => decide (e.2 = v ∧ e.1 ∈ remaining)) with
  | some e => e.1
  | none => v

/-- Iterated `stepBack`. -/
def iterBack (edges : List (Nat × Nat)) (remaining : List Nat) (s0 : Nat) : Nat → Nat
  | 0 => s0
  | i + 1 => stepBack edges remaining (iterBack edges remaining s0 i)

/-- Search for the first pair of indices `a < b ≤ m` whose `iterBack`
iterates from `s0` coincide; return the iterate at `a`.  In a stuck
state that node lies on a cycle. -/
def cycViaAux (edges : List (Nat × Nat)) (remaining : List Nat) (s0 m : Nat) : Nat :=
  match (List.range (m + 1)).find? (fun b =>
      (List.range b).any (fun a =>
        iterBack edges remaining s0 a == iterBack edges remaining s0 b)) with
  | some b =>
    match (List.range b).find? (fun a =>
        iterBack edges remaining s0 a == iterBack edges remaining s0 b) with
    | some a => iterBack edges remaining s0 a
    | none => s0
  | none => s0

/-- In a stuck state, walk incoming edges from the head of `remaining`
until a node repeats; the repeated node lies on a cycle. -/
def cycVia (edges : List (Nat × Nat)) (remaining : List Nat) : Nat :=
  cycViaAux edges remaining (remaining.headD 0) remaining.length

/-- Kahn elimination: repeatedly output a remaining node with no
incoming edge from the remaining set; report a cycle node when stuck.
`fuel ≥ remaining.length` always holds at the call sites, making the
fuel-exhausted branch unreachable. -/
def kahnAux (edges : List (Nat × Nat)) : Nat → List Nat → List Nat ⊕ Nat
  | _, [] => Sum.inl []
  | 0, remaining => Sum.inr (cycVia edges remaining)
  | fuel + 1, remaining =>
    match remaining.find? (noIncoming edges remaining) with
    | some v =>
      match kahnAux edges fuel (remaining.erase v) with
      | Sum.inl order => Sum.inl (v :: order)
      | Sum.inr c => Sum.inr c
    | none => Sum.inr (cycVia edges remaining)

/-- The topological sort of the whole graph (`Sum.inl`: the order over
all node indices; `Sum.inr`: a node on a cycle). -/
def toposort (n : Nat) (edges : List (Nat × Nat)) : List Nat ⊕ Nat :=
  kahnAux edges n (List.range n)

example : toposort 3 [(0, 1), (1, 2)] = Sum.inl [0, 1, 2] := by decide
example : toposort 2 [(0, 1), (1, 0)] = Sum.inr 0 := by decide
example : toposort 3 [(1, 0), (2, 1)] = Sum.inl [2, 1, 0] := by decide

/-! ## The orchestrator (main.rs `main`) -/

/-- Result of the side-effect-free planning phase of `main` (lines
29-112): `mismatch` models the panicking `node_map[project_name]`
index at line 58; `nothingToPublish` the two successful early exits at
lines 89-92 and 109-112; `cycleErr` the toposort failure at lines
94-101 (carrying the reported package name); `order` the resolved
publish order of lines 103-115. -/
inductive PlanResult
  | mismatch
  | nothingToPublish
  | cycleErr (name : String)
  | order (names : List String)
deriving DecidableEq, Repr

/-- The planning phase of `main`: build nodes, node map and edges,
resolve the affected set from the seeds, topologically sort the whole
graph, map sorted indices to names and filter them down to the
affected set. -/
def planPublish (pkgs : List (String × Manifest)) (seeds : List String) : PlanResult :=
  match buildEdges (mkNodeMap pkgs) pkgs with
  | none => PlanResult.mismatch
  | some edges =>
    if affectedNames (mkNodeMap pkgs) (mkNodes pkgs) edges seeds = ∅ then
      PlanResult.nothingToPublish
    else
      match toposort (mkNodes pkgs).length edges with
      | Sum.inr c => PlanResult.cycleErr (nodeName (mkNodes pkgs) c)
      | Sum.inl order =>
        if ((order.map (fun i => nodeName (mkNodes pkgs) i)).filter
            (fun s => decide (s ∈ affectedNames (mkNodeMap pkgs) (mkNodes pkgs) edges seeds))) = []
        then PlanResult.nothingToPublish
        else PlanResult.order ((order.map (fun i => nodeName (mkNodes pkgs) i)).filter
            (fun s => decide (s ∈ affectedNames (mkNodeMap pkgs) (mkNodes pkgs) edges seeds)))

/-- Outcome of one `forc publish` subprocess (main.rs lines 122-132):
exit status plus captured standard-error text on failure. -/
inductive PubOutcome
  | success
  | fail (stderr : String)
deriving DecidableEq, Repr

/-- Fatal conditions of the publish loop: a hard publish failure
(main.rs line 140), or the panicking `all_packages_data[...]` index at
line 148 when the declared name is not a directory name. -/
inductive RunError
  | cycleDetected (name : String)
  | mismatch
  | missingPackage (pkg : String)
  | publishFailed (pkg : String) (stderr : String)
deriving DecidableEq, Repr

/-- Observable state of the publish loop: the in-memory manifest map,
the packages for which the publish tool was invoked (in order), the
manifest writes performed (in order), and the error text surfaced to
the operator. -/
structure LoopState where
  manifests : List (String × Manifest)
  invoked : List String
  written : List (String × Manifest)
  errLog : List String
deriving DecidableEq, Repr

/-- The publish loop (main.rs lines 118-154).  For each package in
order: invoke the tool; on a hard failure (exit failure whose stderr
does not contain "already exists") surface the stderr and abort; on
success *or* on an "already exists" skip, read the package's declared
version from its manifest (the map is keyed by directory name — a
missing key models the line 148 panic) and run `update_dependents`
before moving to the next package. -/
def runLoop (outcome : String → PubOutcome) :
    List String → LoopState → LoopState × Option RunError
  | [], st => (st, none)
  | p :: rest, st =>
    let st1 : LoopState := { st with invoked := st.invoked ++ [p] }
    let hardFail : Option String :=
      match outcome p with
      | PubOutcome.success => none
      | PubOutcome.fail stderr =>
        if strContains stderr "already exists" then none else some stderr
    match hardFail with
    | some stderr =>
      ({ st1 with errLog := st1.errLog ++ [stderr] }, some (RunError.publishFailed p stderr))
    | none =>
      match lookupKey p st1.manifests with
      | none => (st1, some (RunError.missingPackage p))
      | some m =>
        let r := updateDependents p m.projectVersion st1.manifests
        runLoop outcome rest { st1 with manifests := r.1, written := st1.written ++ r.2 }

/-- Loop state at the start of the publish loop. -/
def initLoopState (pkgs : List (String × Manifest)) : LoopState :=
  { manifests := pkgs, invoked := [], written := [], errLog := [] }

/-- The whole run after argument/credential handling: plan, then (only
when a publish order was produced) the publish loop. -/
def runOrchestrator (outcome : String → PubOutcome)
    (pkgs : List (String × Manifest)) (seeds : List String) :
    LoopState × Option RunError :=
  match planPublish pkgs seeds with
  | PlanResult.mismatch => (initLoopState pkgs, some RunError.mismatch)
  | PlanResult.nothingToPublish => (initLoopState pkgs, none)
  | PlanResult.cycleErr nm => (initLoopState pkgs, some (RunError.cycleDetected nm))
  | PlanResult.order names => runLoop outcome names (initLoopState pkgs)

/-! ## Lemmas about the manifest updater -/

theorem lookupKey_eq_none {β : Type} {k : String} {l : List (String × β)} :
    lookupKey k l = none ↔ ∀ e ∈ l, e.1 ≠ k := by
  induction l with
  | nil => simp [lookupKey]
  | cons e rest ih =>
    by_cases h : e.1 = k <;> simp [lookupKey, h, ih]

theorem lookupKey_append_of_none {β : Type} {k : String} {l : List (String × β)}
    (l2 : List (String × β)) (h : lookupKey k l = none) :
    lookupKey k (l ++ l2) = lookupKey k l2 := by
  induction l with
  | nil => simp
  | cons e rest ih =>
    by_cases he : e.1 = k
    · simp [lookupKey, he] at h
    · simp only [lookupKey, he, if_false, List.cons_append] at h ⊢
      simp [lookupKey, he, ih h]

theorem lookupKey_append_cons_self {β : Type} (k : String) (x : β)
    (l1 l2 : List (String × β)) (h : ∀ e ∈ l1, e.1 ≠ k) :
    lookupKey k (l1 ++ (k, x) :: l2) = some x := by
  rw [lookupKey_append_of_none _ (lookupKey_eq_none.mpr h)]
  simp [lookupKey]

theorem mem_itInsert {entries : List (String × String)} {k v : String}
    {e : String × String} (h : e ∈ itInsert entries k v) :
    e.1 = k ∨ e ∈ entries := by
  unfold itInsert at h
  split at h
  · rcases List.mem_map.mp h with ⟨a, ha, rfl⟩
    by_cases hak : a.1 = k
    · simp [hak]
    · simp [hak, ha]
  · rcases List.mem_append.mp h with h | h
    · exact Or.inr h
    · simp_all

theorem lookupKey_itInsert_self (entries : List (String × String)) (k v : String) :
    lookupKey k (itInsert entries k v) = some v := by
  unfold itInsert
  split
  · rename_i hex
    induction entries with
    | nil => simp at hex
    | cons e rest ih =>
      by_cases he : e.1 = k
      · simp [lookupKey, he]
      · rcases hex with ⟨a, ha, hak⟩
        rcases List.mem_cons.mp ha with rfl | ha'
        · exact absurd hak he
        · simpa [lookupKey, he] using ih ⟨a, ha', hak⟩
  · rename_i hex
    rw [lookupKey_append_of_none _ (lookupKey_eq_none.mpr (by
      intro e he hk
      exact hex ⟨e, he, hk⟩))]
    simp [lookupKey]

theorem pathToVersion_no_path (entries : List (String × String)) (v : String) :
    ∀ e ∈ pathToVersion entries v, e.1 ≠ "path" := by
  intro e he
  rcases mem_itInsert he with h | h
  · simp [h]
  · have := (List.mem_filter.mp h).2
    simpa using this

theorem lookupKey_pathToVersion (entries : List (String × String)) (v : String) :
    lookupKey "version" (pathToVersion entries v) = some v :=
  lookupKey_itInsert_self _ _ _

@[simp] theorem lookupKey_nil {β : Type} (k : String) : lookupKey (β := β) k [] = none := rfl

@[simp] theorem lookupKey_cons_self {β : Type} (k : String) (x : β) (l : List (String × β)) :
    lookupKey k ((k, x) :: l) = some x := by simp [lookupKey]

@[simp] theorem lookupKey_cons_ne {β : Type} {k k' : String} (x : β) (l : List (String × β))
    (h : k' ≠ k) : lookupKey k ((k', x) :: l) = lookupKey k l := by simp [lookupKey, h]

@[simp] theorem depsHavePathOn_nil (p : String) : depsHavePathOn [] p = false := rfl

@[simp] theorem depsHavePathOn_cons_self_inline (p : String)
    (entries : List (String × String)) (rest : List (String × DepVal)) :
    depsHavePathOn ((p, DepVal.inlineTable entries) :: rest) p =
      decide (∃ e ∈ entries, e.1 = "path") := by
  unfold depsHavePathOn
  rw [lookupKey_cons_self]

@[simp] theorem depsHavePathOn_cons_self_table (p : String)
    (entries : List (String × String)) (rest : List (String × DepVal)) :
    depsHavePathOn ((p, DepVal.table entries) :: rest) p = false := by
  unfold depsHavePathOn
  rw [lookupKey_cons_self]

@[simp] theorem depsHavePathOn_cons_self_str (p s : String)
    (rest : List (String × DepVal)) :
    depsHavePathOn ((p, DepVal.str s) :: rest) p = false := by
  unfold depsHavePathOn
  rw [lookupKey_cons_self]

@[simp] theorem depsHavePathOn_cons_ne {p k : String} (dv : DepVal)
    (rest : List (String × DepVal)) (h : k ≠ p) :
    depsHavePathOn ((k, dv) :: rest) p = depsHavePathOn rest p := by
  unfold depsHavePathOn
  rw [lookupKey_cons_ne _ _ h]

theorem updateDeps_of_not_pathdep (p v : String) (deps : List (String × DepVal))
    (h : depsHavePathOn deps p = false) :
    updateDeps p v deps = (deps, false) := by
  induction deps with
  | nil => rfl
  | cons e rest ih =>
    obtain ⟨k, dv⟩ := e
    by_cases hk : k = p
    · subst hk
      cases dv with
      | inlineTable entries =>
        rw [depsHavePathOn_cons_self_inline] at h
        simp only [decide_eq_false_iff_not] at h
        simp [updateDeps, h]
      | table entries => simp [updateDeps]
      | str s => simp [updateDeps]
    · rw [depsHavePathOn_cons_ne _ _ hk] at h
      simp [updateDeps, hk, ih h]

theorem updateDeps_decomp (p v : String) (l1 l2 : List (String × DepVal))
    (entries : List (String × String))
    (h1 : ∀ e ∈ l1, e.1 ≠ p) (hp : ∃ e ∈ entries, e.1 = "path") :
    updateDeps p v (l1 ++ (p, DepVal.inlineTable entries) :: l2) =
      (l1 ++ (p, DepVal.inlineTable (pathToVersion entries v)) :: l2, true) := by
  induction l1 with
  | nil => simp [updateDeps, hp]
  | cons e rest ih =>
    obtain ⟨k, dv⟩ := e
    have hk : k ≠ p := h1 (k, dv) (List.mem_cons_self _ _)
    have := ih (fun e he => h1 e (List.mem_cons_of_mem _ he))
    simp [updateDeps, hk, this]

theorem updateDeps_clears (p v : String) (deps : List (String × DepVal)) :
    depsHavePathOn (updateDeps p v deps).1 p = false := by
  induction deps with
  | nil => rfl
  | cons e rest ih =>
    obtain ⟨k, dv⟩ := e
    by_cases hk : k = p
    · subst hk
      cases dv with
      | inlineTable entries =>
        by_cases hp : ∃ e ∈ entries, e.1 = "path"
        · have hstep : updateDeps k v ((k, DepVal.inlineTable entries) :: rest) =
              ((k, DepVal.inlineTable (pathToVersion entries v)) :: rest, true) := by
            simp [updateDeps, hp]
          rw [hstep]
          simp only [depsHavePathOn_cons_self_inline, decide_eq_false_iff_not]
          rintro ⟨e, he, hkey⟩
          exact pathToVersion_no_path entries v e he hkey
        · have hstep : updateDeps k v ((k, DepVal.inlineTable entries) :: rest) =
              ((k, DepVal.inlineTable entries) :: rest, false) := by
            simp [updateDeps, hp]
          rw [hstep]
          simp only [depsHavePathOn_cons_self_inline, decide_eq_false_iff_not]
          exact hp
      | table entries => simp [updateDeps]
      | str s => simp [updateDeps]
    · have hstep : updateDeps p v ((k, dv) :: rest) =
          ((k, dv) :: (updateDeps p v rest).1, (updateDeps p v rest).2) := by
        simp [updateDeps, hk]
      rw [hstep]
      rw [depsHavePathOn_cons_ne _ _ hk]
      exact ih

theorem updateDeps_idem (p v : String) (deps : List (String × DepVal)) :
    updateDeps p v (updateDeps p v deps).1 = ((updateDeps p v deps).1, false) :=
  updateDeps_of_not_pathdep p v _ (updateDeps_clears p v deps)

theorem updateDeps_dirty_pathdep {p v : String} {deps : List (String × DepVal)}
    (h : (updateDeps p v deps).2 = true) : depsHavePathOn deps p = true := by
  by_contra hfalse
  rw [updateDeps_of_not_pathdep p v deps (by simpa using hfalse)] at h
  simp at h

theorem updateOne_of_not_pathdep (p v : String) (m : Manifest)
    (h : hasPathDepOn m p = false) : updateOne p v m = (m, false) := by
  obtain ⟨pn, pv, deps, rest⟩ := m
  cases deps with
  | none => rfl
  | some ds =>
    have hd : depsHavePathOn ds p = false := by simpa [hasPathDepOn] using h
    simp [updateOne, updateDeps_of_not_pathdep p v ds hd]

theorem updateOne_dirty_pathdep {p v : String} {m : Manifest}
    (h : (updateOne p v m).2 = true) : hasPathDepOn m p = true := by
  by_contra hf
  rw [updateOne_of_not_pathdep p v m (by simpa using hf)] at h
  simp at h

theorem updateOne_clears (p v : String) (m : Manifest) :
    hasPathDepOn (updateOne p v m).1 p = false := by
  obtain ⟨pn, pv, deps, rest⟩ := m
  cases deps with
  | none => simp [updateOne, hasPathDepOn]
  | some ds => simp [updateOne, hasPathDepOn, updateDeps_clears]

theorem updateOne_idem (p v : String) (m : Manifest) :
    updateOne p v (updateOne p v m).1 = ((updateOne p v m).1, false) :=
  updateOne_of_not_pathdep p v _ (updateOne_clears p v m)

theorem updateOne_frame (p v : String) (m : Manifest) :
    ((updateOne p v m).1).projectName = m.projectName ∧
    ((updateOne p v m).1).projectVersion = m.projectVersion ∧
    ((updateOne p v m).1).rest = m.rest := by
  obtain ⟨pn, pv, deps, rest⟩ := m
  cases deps with
  | none => exact ⟨rfl, rfl, rfl⟩
  | some ds => exact ⟨rfl, rfl, rfl⟩

/-- C2: after `update_dependents(P, V)` runs, a manifest that declared a
local-path dependency on `P` (an entry `(P, inline table with a "path"
key)`, situated between arbitrary other entries `l1` and `l2`, with `l1`
not containing `P`) declares a version dependency on `P` equal to `V`
and no path entry for `P`; the mutated manifest is written to disk
(it appears in the write list); and all manifest content unrelated to
that one dependency entry — project name, project version, every other
dependency entry, and the remaining manifest text — is unchanged. -/
theorem update_dependents_rewrites_path_deps (p v : String) (m : Manifest)
    (l1 l2 : List (String × DepVal)) (entries : List (String × String))
    (pkgs : List (String × Manifest)) (dn : String)
    (hdeps : m.dependencies = some (l1 ++ (p, DepVal.inlineTable entries) :: l2))
    (h1 : ∀ e ∈ l1, e.1 ≠ p)
    (hp : ∃ e ∈ entries, e.1 = "path")
    (hmem : (dn, m) ∈ pkgs) :
    ((updateOne p v m).1).dependencies =
        some (l1 ++ (p, DepVal.inlineTable (pathToVersion entries v)) :: l2) ∧
    lookupKey p (l1 ++ (p, DepVal.inlineTable (pathToVersion entries v)) :: l2) =
        some (DepVal.inlineTable (pathToVersion entries v)) ∧
    lookupKey "version" (pathToVersion entries v) = some v ∧
    (∀ e ∈ pathToVersion entries v, e.1 ≠ "path") ∧
    ((updateOne p v m).1).projectName = m.projectName ∧
    ((updateOne p v m).1).projectVersion = m.projectVersion ∧
    ((updateOne p v m).1).rest = m.rest ∧
    (updateOne p v m).2 = true ∧
    (dn, (updateOne p v m).1) ∈ (updateDependents p v pkgs).1 ∧
    (dn, (updateOne p v m).1) ∈ (updateDependents p v pkgs).2 := by
  have hud := updateDeps_decomp p v l1 l2 entries h1 hp
  have hone : updateOne p v m =
      (Manifest.mk m.projectName m.projectVersion
        (some (l1 ++ (p, DepVal.inlineTable (pathToVersion entries v)) :: l2)) m.rest, true) := by
    obtain ⟨pn, pv0, deps0, rest0⟩ := m
    dsimp only at hdeps
    subst hdeps
    simp [updateOne, hud]
  refine ⟨by rw [hone], lookupKey_append_cons_self p _ l1 l2 h1,
    lookupKey_pathToVersion entries v, pathToVersion_no_path entries v,
    by rw [hone], by rw [hone], by rw [hone], by rw [hone], ?_, ?_⟩
  · exact List.mem_map.mpr ⟨(dn, m), hmem, rfl⟩
  · refine List.mem_filterMap.mpr ⟨(dn, m), hmem, ?_⟩
    have hd : (updateOne p v m).2 = true := by rw [hone]
    simp only [hd, if_true]

def c2Manifest : Manifest :=
  { projectName := "mid", projectVersion := "0.1.0",
    dependencies := some [("z", DepVal.str "0.2"),
                          ("a", DepVal.inlineTable [("path", "../a"), ("note", "x")]),
                          ("w", DepVal.table [("k", "v")])],
    rest := "# comment preserved" }

theorem update_dependents_rewrites_path_deps_witness :
    lookupKey "version" (pathToVersion [("path", "../a"), ("note", "x")] "1.2.0") = some "1.2.0" ∧
    ("mid", (updateOne "a" "1.2.0" c2Manifest).1) ∈
      (updateDependents "a" "1.2.0" [("mid", c2Manifest)]).2 := by
  have h := update_dependents_rewrites_path_deps "a" "1.2.0" c2Manifest
    [("z", DepVal.str "0.2")] [("w", DepVal.table [("k", "v")])]
    [("path", "../a"), ("note", "x")] [("mid", c2Manifest)] "mid"
    (by decide) (by decide) (by decide) (by decide)
  exact ⟨h.2.2.1, h.2.2.2.2.2.2.2.2.2⟩

/-- C7: a package that declares no local-path dependency on the published
package `p` — in particular one whose declaration is already a pure
version reference — is not mutated by the Manifest Updater and is not
written to disk: `updateOne` leaves it exactly as it was with the dirty
flag false, and every write `update_dependents` performs originates from
a package that did declare a path dependency on `p`. -/
theorem updater_frame_no_pathdep (p v : String) (m : Manifest)
    (pkgs : List (String × Manifest))
    (h : hasPathDepOn m p = false) :
    updateOne p v m = (m, false) ∧
    (∀ w ∈ (updateDependents p v pkgs).2,
       ∃ m0, (w.1, m0) ∈ pkgs ∧ hasPathDepOn m0 p = true) := by
  refine ⟨updateOne_of_not_pathdep p v m h, ?_⟩
  intro w hw
  rcases List.mem_filterMap.mp hw with ⟨e, he, hfe⟩
  obtain ⟨dn0, m0⟩ := e
  by_cases hd : (updateOne p v m0).2
  · simp only [hd, if_true, Option.some.injEq] at hfe
    refine ⟨m0, ?_, updateOne_dirty_pathdep hd⟩
    rw [← hfe]
    exact he
  · simp only [Bool.not_eq_true] at hd
    simp [hd] at hfe

def c7Manifest : Manifest :=
  { projectName := "other", projectVersion := "3.0.0",
    dependencies := some [("a", DepVal.inlineTable [("version", "1.0.0")])],
    rest := "" }

theorem updater_frame_no_pathdep_witness :
    updateOne "a" "9.9.9" c7Manifest = (c7Manifest, false) :=
  (updater_frame_no_pathdep "a" "9.9.9" c7Manifest [] (by decide)).1

/-- C8: the replace-path-with-version transformation is idempotent:
applying `update_dependents(P, V)` to the manifest map it has already
produced changes nothing and performs no write (the second application
finds no remaining path entry for `P` in any manifest). -/
theorem updater_idempotent (p v : String) (pkgs : List (String × Manifest)) :
    updateDependents p v (updateDependents p v pkgs).1 = ((updateDependents p v pkgs).1, []) ∧
    ∀ e ∈ (updateDependents p v pkgs).1, hasPathDepOn e.2 p = false := by
  constructor
  · unfold updateDependents
    simp only [Prod.mk.injEq]
    constructor
    · rw [List.map_map]
      refine List.map_congr_left ?_
      intro a _
      simp only [Function.comp]
      rw [updateOne_idem]
    · rw [List.filterMap_map]
      refine List.filterMap_eq_nil_iff.mpr ?_
      intro a _
      simp only [Function.comp]
      rw [updateOne_idem]
      simp
  · intro e he
    rcases List.mem_map.mp he with ⟨a, _, rfl⟩
    exact updateOne_clears p v a.2

/-- C10: only dependency declarations written as TOML inline tables are
recognized: every edge produced by the graph builder originates from an
inline-table entry carrying a "path" key (so a `[dependencies.name]`
non-inline table, even with a `path` key and a known name, contributes
no edge), and when the first entry for the published package `p` is a
non-inline table the Manifest Updater leaves the dependency table
unchanged with the dirty flag false (so it never rewrites it). -/
theorem non_inline_dep_ignored (nm : List (String × Nat)) (fromIdx : Nat)
    (deps : List (String × DepVal)) (p v : String) (es : List (String × String)) :
    (∀ t f, (t, f) ∈ edgesFromDeps nm fromIdx deps →
       ∃ k entries, (k, DepVal.inlineTable entries) ∈ deps ∧
         (∃ kv ∈ entries, kv.1 = "path") ∧ lookupKey k nm = some t ∧ f = fromIdx) ∧
    (lookupKey p deps = some (DepVal.table es) → updateDeps p v deps = (deps, false)) := by
  constructor
  · intro t f hm
    unfold edgesFromDeps at hm
    rcases List.mem_filterMap.mp hm with ⟨e, he, hfe⟩
    obtain ⟨k, dv⟩ := e
    cases dv with
    | inlineTable entries =>
      by_cases hpath : ∃ kv ∈ entries, kv.1 = "path"
      · simp only [if_pos hpath] at hfe
        cases hlk : lookupKey k nm with
        | none => rw [hlk] at hfe; simp at hfe
        | some toIdx =>
          rw [hlk] at hfe
          simp only [Option.some.injEq, Prod.mk.injEq] at hfe
          exact ⟨k, entries, he, hpath, by rw [hlk, hfe.1], hfe.2.symm⟩
      · simp only [if_neg hpath] at hfe
        simp at hfe
    | table entries => simp at hfe
    | str s => simp at hfe
  · intro hlk
    refine updateDeps_of_not_pathdep p v deps ?_
    unfold depsHavePathOn
    rw [hlk]

theorem non_inline_dep_ignored_witness :
    updateDeps "a" "1.0" [("a", DepVal.table [("path", "../a")])] =
      ([("a", DepVal.table [("path", "../a")])], false) ∧
    edgesFromDeps [("a", 0)] 1 [("a", DepVal.table [("path", "../a")])] = [] := by
  refine ⟨(non_inline_dep_ignored [("a", 0)] 1
    [("a", DepVal.table [("path", "../a")])] "a" "1.0" [("path", "../a")]).2 (by decide), ?_⟩
  decide

/-! ## The publish loop: hard failures and skips -/

/-- C6: when the external publish tool fails for a package `p` and the
captured error text does not contain the already-published marker, the
run aborts at `p`: the error text is surfaced to the operator
(appended to the error log), the tool is invoked for no later package
(the invoked list ends at `p`), no manifest update is performed for
`p`, and the manifest map and write list keep exactly the state they
had reached before the failure. -/
theorem hard_failure_aborts (outcome : String → PubOutcome) (p : String)
    (rest : List String) (st : LoopState) (stderr : String)
    (ho : outcome p = PubOutcome.fail stderr)
    (hm : strContains stderr "already exists" = false) :
    runLoop outcome (p :: rest) st =
      (LoopState.mk st.manifests (st.invoked ++ [p]) st.written (st.errLog ++ [stderr]),
       some (RunError.publishFailed p stderr)) := by
  obtain ⟨ms, inv, wr, el⟩ := st
  simp [runLoop, ho, hm]

def c6Outcome : String → PubOutcome := fun _ => PubOutcome.fail "network unreachable"

theorem hard_failure_aborts_witness :
    runLoop c6Outcome ["a", "b"] (initLoopState []) =
      (LoopState.mk [] ["a"] [] ["network unreachable"],
       some (RunError.publishFailed "a" "network unreachable")) := by
  have h := hard_failure_aborts c6Outcome "a" ["b"] (initLoopState [])
    "network unreachable" rfl (by decide)
  simpa [initLoopState] using h

/-- C5 (amended): when the external publish tool exits with failure for
`p` and the captured error text contains the already-published marker,
the run continues to the next package — but the Manifest Updater still
runs for `p`, exactly as after a confirmed success, using the version
declared in `p`'s own manifest: the loop proceeds on the updated
manifest map with the update's writes appended. -/
theorem skip_still_updates (outcome : String → PubOutcome) (p : String)
    (rest : List String) (st : LoopState) (stderr : String) (m : Manifest)
    (ho : outcome p = PubOutcome.fail stderr)
    (hm : strContains stderr "already exists" = true)
    (hl : lookupKey p st.manifests = some m) :
    runLoop outcome (p :: rest) st =
      runLoop outcome rest
        (LoopState.mk (updateDependents p m.projectVersion st.manifests).1
          (st.invoked ++ [p])
          (st.written ++ (updateDependents p m.projectVersion st.manifests).2)
          st.errLog) := by
  obtain ⟨ms, inv, wr, el⟩ := st
  dsimp only at hl
  simp [runLoop, ho, hm, hl]

def c5PkgA : Manifest :=
  { projectName := "a", projectVersion := "1.0.0", dependencies := none, rest := "" }

def c5PkgB : Manifest :=
  { projectName := "b", projectVersion := "0.1.0",
    dependencies := some [("a", DepVal.inlineTable [("path", "../a")])], rest := "" }

def c5Pkgs : List (String × Manifest) := [("a", c5PkgA), ("b", c5PkgB)]

def c5Outcome : String → PubOutcome := fun _ => PubOutcome.fail "[a] already exists"

theorem skip_still_updates_witness :
    runLoop c5Outcome ["a"] (initLoopState c5Pkgs) =
      runLoop c5Outcome []
        (LoopState.mk (updateDependents "a" "1.0.0" c5Pkgs).1 ["a"]
          (updateDependents "a" "1.0.0" c5Pkgs).2 []) := by
  have h := skip_still_updates c5Outcome "a" [] (initLoopState c5Pkgs)
    "[a] already exists" c5PkgA rfl (by decide) (by decide)
  simpa [initLoopState] using h

/-- C5 counterexample: the publish tool reports a failure whose error
text contains "already exists" (a skip classification), yet the
Manifest Updater still runs for that package: the run continues
without error and the dependent package `b`'s manifest is rewritten
and written to disk, contradicting the claim that no Manifest Update
is performed after a skip. -/
theorem skip_no_update_cex :
    c5Outcome "a" = PubOutcome.fail "[a] already exists" ∧
    strContains "[a] already exists" "already exists" = true ∧
    (runLoop c5Outcome ["a"] (initLoopState c5Pkgs)).1.written =
      [("b", Manifest.mk "b" "0.1.0"
        (some [("a", DepVal.inlineTable [("version", "1.0.0")])]) "")] ∧
    (runLoop c5Outcome ["a"] (initLoopState c5Pkgs)).2 = none := by
  refine ⟨rfl, by decide, by decide, by decide⟩

/-! ## Reachability facts -/

theorem mem_stepSet {edges : List (Nat × Nat)} {S : Finset Nat} {v : Nat} :
    v ∈ stepSet edges S ↔ v ∈ S ∨ ∃ u ∈ S, (u, v) ∈ edges := by
  simp only [stepSet, Finset.mem_union, List.mem_toFinset, List.mem_map, List.mem_filter,
    decide_eq_true_eq]
  constructor
  · rintro (h | ⟨e, ⟨he, hs⟩, rfl⟩)
    · exact Or.inl h
    · exact Or.inr ⟨e.1, hs, by simpa using he⟩
  · rintro (h | ⟨u, hu, hm⟩)
    · exact Or.inl h
    · exact Or.inr ⟨(u, v), ⟨hm, hu⟩, rfl⟩

theorem subset_reachAux (edges : List (Nat × Nat)) :
    ∀ fuel (S : Finset Nat), S ⊆ reachAux edges fuel S := by
  intro fuel
  induction fuel with
  | zero => intro S; exact Finset.Subset.refl S
  | succ f ih =>
    intro S
    unfold reachAux
    split
    · exact Finset.Subset.refl S
    · exact Finset.Subset.trans Finset.subset_union_left (ih (stepSet edges S))

theorem reachAux_sound (edges : List (Nat × Nat)) :
    ∀ fuel (S : Finset Nat) (v : Nat), v ∈ reachAux edges fuel S →
      ∃ u ∈ S, Relation.ReflTransGen (edgeRel edges) u v := by
  intro fuel
  induction fuel with
  | zero => intro S v hv; exact ⟨v, hv, Relation.ReflTransGen.refl⟩
  | succ f ih =>
    intro S v hv
    unfold reachAux at hv
    split at hv
    · exact ⟨v, hv, Relation.ReflTransGen.refl⟩
    · rcases ih _ _ hv with ⟨u, hu, hr⟩
      rcases mem_stepSet.mp hu with h | ⟨w, hw, hmem⟩
      · exact ⟨u, h, hr⟩
      · exact ⟨w, hw, Relation.ReflTransGen.head hmem hr⟩

theorem reachAux_closed (edges : List (Nat × Nat)) (U : Finset Nat)
    (hU : ((edges.map Prod.snd).toFinset : Finset Nat) ⊆ U) :
    ∀ fuel (S : Finset Nat), S ⊆ U → U.card ≤ fuel + S.card →
      stepSet edges (reachAux edges fuel S) ⊆ reachAux edges fuel S := by
  intro fuel
  induction fuel with
  | zero =>
    intro S hSU hcard
    have hSe : S = U := Finset.eq_of_subset_of_card_le hSU (by simpa using hcard)
    subst hSe
    intro v hv
    rcases mem_stepSet.mp hv with h | ⟨u, _, hm⟩
    · exact h
    · exact hU (List.mem_toFinset.mpr (List.mem_map.mpr ⟨(u, v), hm, rfl⟩))
  | succ f ih =>
    intro S hSU hcard
    unfold reachAux
    split
    · rename_i hsub; exact hsub
    · rename_i hnsub
      refine ih (stepSet edges S) ?_ ?_
      · intro v hv
        rcases mem_stepSet.mp hv with h | ⟨u, _, hm⟩
        · exact hSU h
        · exact hU (List.mem_toFinset.mpr (List.mem_map.mpr ⟨(u, v), hm, rfl⟩))
      · have hss : S ⊂ stepSet edges S :=
          ssubset_of_subset_not_subset Finset.subset_union_left hnsub
        have := Finset.card_lt_card hss
        omega

theorem reachSet_closed (edges : List (Nat × Nat)) (s : Nat) :
    stepSet edges (reachSet edges s) ⊆ reachSet edges s := by
  refine reachAux_closed edges ({s} ∪ (edges.map Prod.snd).toFinset)
    Finset.subset_union_right _ {s} Finset.subset_union_left ?_
  have h1 : ({s} ∪ (edges.map Prod.snd).toFinset).card ≤
      ({s} : Finset Nat).card + ((edges.map Prod.snd).toFinset).card :=
    Finset.card_union_le _ _
  have h2 : ((edges.map Prod.snd).toFinset).card ≤ edges.length := by
    simpa using List.toFinset_card_le (edges.map Prod.snd)
  simp only [Finset.card_singleton] at h1 ⊢
  omega

theorem reachSet_spec (edges : List (Nat × Nat)) (s v : Nat) :
    v ∈ reachSet edges s ↔ Relation.ReflTransGen (edgeRel edges) s v := by
  constructor
  · intro hv
    rcases reachAux_sound edges _ _ _ hv with ⟨u, hu, hr⟩
    rw [Finset.mem_singleton] at hu
    subst hu
    exact hr
  · intro hr
    induction hr with
    | refl => exact subset_reachAux edges _ _ (Finset.mem_singleton_self s)
    | tail hab hbc ih =>
      exact reachSet_closed edges s (mem_stepSet.mpr (Or.inr ⟨_, ih, hbc⟩))

theorem mem_reachSet_self (edges : List (Nat × Nat)) (s : Nat) : s ∈ reachSet edges s :=
  (reachSet_spec edges s s).mpr Relation.ReflTransGen.refl

theorem mem_affectedNames {nm : List (String × Nat)} {nodes : List String}
    {edges : List (Nat × Nat)} {seeds : List String} {x : String} :
    x ∈ affectedNames nm nodes edges seeds ↔
      ∃ s ∈ seeds, ∃ i j, lookupKey s nm = some i ∧ j ∈ reachSet edges i ∧
        x = nodeName nodes j := by
  induction seeds with
  | nil => simp [affectedNames]
  | cons s rest ih =>
    unfold affectedNames
    simp only [List.foldr_cons]
    cases hlk : lookupKey s nm with
    | none =>
      rw [show (List.foldr _ ∅ rest : Finset String) = affectedNames nm nodes edges rest from rfl]
      rw [ih]
      constructor
      · rintro ⟨s', hs', rest'⟩
        exact ⟨s', List.mem_cons_of_mem _ hs', rest'⟩
      · rintro ⟨s', hs', i, j, hlk', hrest⟩
        rcases List.mem_cons.mp hs' with rfl | hs''
        · rw [hlk] at hlk'; exact absurd hlk' (by simp)
        · exact ⟨s', hs'', i, j, hlk', hrest⟩
    | some i =>
      rw [show (List.foldr _ ∅ rest : Finset String) = affectedNames nm nodes edges rest from rfl]
      rw [Finset.mem_union, ih, Finset.mem_image]
      constructor
      · rintro (⟨j, hj, rfl⟩ | ⟨s', hs', i', j, hlk', hj, rfl⟩)
        · exact ⟨s, List.mem_cons_self _ _, i, j, hlk, hj, rfl⟩
        · exact ⟨s', List.mem_cons_of_mem _ hs', i', j, hlk', hj, rfl⟩
      · rintro ⟨s', hs', i', j, hlk', hj, rfl⟩
        rcases List.mem_cons.mp hs' with rfl | hs''
        · rw [hlk] at hlk'
          cases hlk'
          exact Or.inl ⟨j, hj, rfl⟩
        · exact Or.inr ⟨s', hs'', i', j, hlk', hj, rfl⟩

theorem affectedNames_append (nm : List (String × Nat)) (nodes : List String)
    (edges : List (Nat × Nat)) (s1 s2 : List String) :
    affectedNames nm nodes edges (s1 ++ s2) =
      affectedNames nm nodes edges s1 ∪ affectedNames nm nodes edges s2 := by
  induction s1 with
  | nil => simp [affectedNames]
  | cons s rest ih =>
    unfold affectedNames
    simp only [List.cons_append, List.foldr_cons]
    rw [show (List.foldr _ ∅ (rest ++ s2) : Finset String) =
      affectedNames nm nodes edges (rest ++ s2) from rfl]
    rw [show (List.foldr _ ∅ rest : Finset String) = affectedNames nm nodes edges rest from rfl]
    cases hlk : lookupKey s nm with
    | none => exact ih
    | some i =>
      dsimp only
      rw [ih, Finset.union_assoc]
      rw [show (List.foldr _ ∅ s2 : Finset String) = affectedNames nm nodes edges s2 from rfl]

/-! ## Node map coherence -/

theorem mkNodeMapAux_lookup (full : List String) :
    ∀ (suffix : List String) (i0 : Nat) (m : List (String × Nat)),
      (∀ k, k < suffix.length → full.get? (i0 + k) = suffix.get? k) →
      (∀ s j, lookupKey s m = some j → full.get? j = some s) →
      ∀ s j, lookupKey s (mkNodeMapAux suffix i0 m) = some j → full.get? j = some s := by
  intro suffix
  induction suffix with
  | nil => intro i0 m _ hm s j h; exact hm s j h
  | cons s0 rest ih =>
    intro i0 m halign hm s j h
    refine ih (i0 + 1) ((s0, i0) :: m) ?_ ?_ s j h
    · intro k hk
      have := halign (k + 1) (by simpa using Nat.succ_lt_succ hk)
      simpa [Nat.add_assoc, Nat.add_comm 1 k] using this
    · intro s' j' hl
      by_cases hse : s0 = s'
      · subst hse
        rw [lookupKey_cons_self] at hl
        cases hl
        have := halign 0 (by simp)
        simpa using this
      · rw [lookupKey_cons_ne _ _ hse] at hl
        exact hm s' j' hl

theorem mkNodeMap_lookup_get {pkgs : List (String × Manifest)} {s : String} {i : Nat}
    (h : lookupKey s (mkNodeMap pkgs) = some i) : (mkNodes pkgs).get? i = some s := by
  refine mkNodeMapAux_lookup (mkNodes pkgs) (mkNodes pkgs) 0 [] ?_ ?_ s i h
  · intro k hk; simp
  · intro s' j' hl; simp [lookupKey] at hl

theorem mkNodeMap_lookup_lt {pkgs : List (String × Manifest)} {s : String} {i : Nat}
    (h : lookupKey s (mkNodeMap pkgs) = some i) : i < pkgs.length := by
  have := mkNodeMap_lookup_get h
  have hlt := List.get?_eq_some.mp this
  simpa [mkNodes] using hlt.1

theorem mkNodeMap_lookup_name {pkgs : List (String × Manifest)} {s : String} {i : Nat}
    (h : lookupKey s (mkNodeMap pkgs) = some i) : nodeName (mkNodes pkgs) i = s := by
  have hg := mkNodeMap_lookup_get h
  unfold nodeName
  rw [List.getD_eq_getElem?_getD, ← List.get?_eq_getElem?, hg]
  rfl

/-- C3: for seeds resolved against the node map, the Affected Set is
exactly the union over the seeds of the sets of nodes forward-reachable
(along dependency-to-dependent edges) from the seed's node, each seed's
own name included in its per-seed set; consequently the affected set of
`[X, Y]` is the union of the affected sets of `[X]` and `[Y]`, and a
known seed `X` always belongs to its own affected set. -/
theorem affected_set_spec (pkgs : List (String × Manifest)) (edges : List (Nat × Nat))
    (seeds : List String) (X Y : String) :
    (∀ x, x ∈ affectedNames (mkNodeMap pkgs) (mkNodes pkgs) edges seeds ↔
        ∃ s ∈ seeds, ∃ i j, lookupKey s (mkNodeMap pkgs) = some i ∧
          Relation.ReflTransGen (edgeRel edges) i j ∧ x = nodeName (mkNodes pkgs) j) ∧
    affectedNames (mkNodeMap pkgs) (mkNodes pkgs) edges [X, Y] =
      affectedNames (mkNodeMap pkgs) (mkNodes pkgs) edges [X] ∪
        affectedNames (mkNodeMap pkgs) (mkNodes pkgs) edges [Y] ∧
    ((lookupKey X (mkNodeMap pkgs)).isSome →
      X ∈ affectedNames (mkNodeMap pkgs) (mkNodes pkgs) edges [X]) := by
  refine ⟨?_, ?_, ?_⟩
  · intro x
    rw [mem_affectedNames]
    constructor
    · rintro ⟨s, hs, i, j, hlk, hj, rfl⟩
      exact ⟨s, hs, i, j, hlk, (reachSet_spec edges i j).mp hj, rfl⟩
    · rintro ⟨s, hs, i, j, hlk, hr, rfl⟩
      exact ⟨s, hs, i, j, hlk, (reachSet_spec edges i j).mpr hr, rfl⟩
  · exact affectedNames_append _ _ _ [X] [Y]
  · intro hX
    rcases Option.isSome_iff_exists.mp hX with ⟨i, hi⟩
    rw [mem_affectedNames]
    exact ⟨X, List.mem_cons_self _ _, i, i, hi, mem_reachSet_self edges i,
      (mkNodeMap_lookup_name hi).symm⟩

def c3Pkgs : List (String × Manifest) :=
  [("a", { projectName := "a", projectVersion := "1.0.0", dependencies := none, rest := "" }),
   ("b", { projectName := "b", projectVersion := "1.0.0",
           dependencies := some [("a", DepVal.inlineTable [("path", "../a")])], rest := "" })]

theorem affected_set_spec_witness :
    "a" ∈ affectedNames (mkNodeMap c3Pkgs) (mkNodes c3Pkgs) [(0, 1)] ["a"] :=
  (affected_set_spec c3Pkgs [(0, 1)] ["a"] "a" "b").2.2 (by decide)

/-! ## More node-map and edge-construction facts -/

theorem mkNodeMapAux_lookup_isSome :
    ∀ (suffix : List String) (i0 : Nat) (m : List (String × Nat)) (s : String),
      s ∈ suffix ∨ (lookupKey s m).isSome →
      (lookupKey s (mkNodeMapAux suffix i0 m)).isSome := by
  intro suffix
  induction suffix with
  | nil =>
    intro i0 m s h
    rcases h with h | h
    · simp at h
    · exact h
  | cons s0 rest ih =>
    intro i0 m s h
    refine ih (i0 + 1) ((s0, i0) :: m) s ?_
    rcases h with h | h
    · rcases List.mem_cons.mp h with rfl | h'
      · right
        rw [lookupKey_cons_self]
        rfl
      · exact Or.inl h'
    · right
      by_cases hse : s0 = s
      · subst hse
        rw [lookupKey_cons_self]
        rfl
      · rw [lookupKey_cons_ne _ _ hse]
        exact h

theorem mkNodeMap_mem_isSome {pkgs : List (String × Manifest)} {s : String}
    (h : s ∈ mkNodes pkgs) : (lookupKey s (mkNodeMap pkgs)).isSome :=
  mkNodeMapAux_lookup_isSome (mkNodes pkgs) 0 [] s (Or.inl h)

theorem buildEdges_total (nm : List (String × Nat)) :
    ∀ (sub : List (String × Manifest)),
      (∀ e ∈ sub, (lookupKey e.1 nm).isSome ∨ e.2.dependencies = none) →
      ∃ es, buildEdges nm sub = some es := by
  intro sub
  induction sub with
  | nil => exact fun _ => ⟨[], rfl⟩
  | cons e rest ih =>
    intro h
    obtain ⟨dn, m⟩ := e
    rcases ih (fun e he => h e (List.mem_cons_of_mem _ he)) with ⟨es, hes⟩
    cases hd : m.dependencies with
    | none =>
      refine ⟨es, ?_⟩
      unfold buildEdges
      rw [hd]
      exact hes
    | some deps =>
      rcases h (dn, m) (List.mem_cons_self _ _) with hs | hnone
      · rcases Option.isSome_iff_exists.mp hs with ⟨i, hi⟩
        refine ⟨edgesFromDeps nm i deps ++ es, ?_⟩
        unfold buildEdges
        rw [hd]
        dsimp only at hi
        rw [hi, hes]
        rfl
      · rw [hd] at hnone
        simp at hnone

theorem mem_edgesFromDeps {nm : List (String × Nat)} {fromIdx : Nat}
    {deps : List (String × DepVal)} {ed : Nat × Nat}
    (h : ed ∈ edgesFromDeps nm fromIdx deps) :
    (∃ s, lookupKey s nm = some ed.1) ∧ ed.2 = fromIdx := by
  unfold edgesFromDeps at h
  rcases List.mem_filterMap.mp h with ⟨e, he, hfe⟩
  obtain ⟨k, dv⟩ := e
  cases dv with
  | inlineTable entries =>
    by_cases hpath : ∃ kv ∈ entries, kv.1 = "path"
    · simp only [if_pos hpath] at hfe
      cases hlk : lookupKey k nm with
      | none => rw [hlk] at hfe; simp at hfe
      | some toIdx =>
        rw [hlk] at hfe
        simp only [Option.some.injEq] at hfe
        subst hfe
        exact ⟨⟨k, by rw [hlk]⟩, rfl⟩
    · simp only [if_neg hpath] at hfe
      simp at hfe
  | table entries => simp at hfe
  | str s => simp at hfe

theorem buildEdges_values (nm : List (String × Nat)) :
    ∀ (sub : List (String × Manifest)) (es : List (Nat × Nat)),
      buildEdges nm sub = some es →
      ∀ ed ∈ es, (∃ s, lookupKey s nm = some ed.1) ∧ (∃ s, lookupKey s nm = some ed.2) := by
  intro sub
  induction sub with
  | nil =>
    intro es hes ed hed
    unfold buildEdges at hes
    cases hes
    simp at hed
  | cons e rest ih =>
    intro es hes ed hed
    obtain ⟨dn, m⟩ := e
    unfold buildEdges at hes
    cases hd : m.dependencies with
    | none =>
      rw [hd] at hes
      exact ih es hes ed hed
    | some deps =>
      rw [hd] at hes
      cases hlk : lookupKey dn nm with
      | none => rw [hlk] at hes; simp at hes
      | some fromIdx =>
        rw [hlk] at hes
        cases hrest : buildEdges nm rest with
        | none => rw [hrest] at hes; simp at hes
        | some es' =>
          rw [hrest] at hes
          simp only [Option.map_some', Option.some.injEq] at hes
          subst hes
          rcases List.mem_append.mp hed with h | h
          · have hm := mem_edgesFromDeps h
            exact ⟨hm.1, ⟨dn, by rw [hlk, hm.2]⟩⟩
          · exact ih es' hrest ed h

theorem buildEdges_wf {pkgs : List (String × Manifest)} {es : List (Nat × Nat)}
    (h : buildEdges (mkNodeMap pkgs) pkgs = some es) :
    ∀ ed ∈ es, ed.1 < pkgs.length ∧ ed.2 < pkgs.length := by
  intro ed hed
  rcases buildEdges_values (mkNodeMap pkgs) pkgs es h ed hed with ⟨⟨s1, h1⟩, ⟨s2, h2⟩⟩
  exact ⟨mkNodeMap_lookup_lt h1, mkNodeMap_lookup_lt h2⟩

/-! ## Toposort correctness -/

theorem stepBack_spec {edges : List (Nat × Nat)} {remaining : List Nat} {v : Nat}
    (hstuck : ∀ w ∈ remaining, ∃ e ∈ edges, e.2 = w ∧ e.1 ∈ remaining)
    (hv : v ∈ remaining) :
    stepBack edges remaining v ∈ remaining ∧ (stepBack edges remaining v, v) ∈ edges := by
  unfold stepBack
  cases hf : edges.find? (fun e => decide (e.2 = v ∧ e.1 ∈ remaining)) with
  | none =>
    rcases hstuck v hv with ⟨e, he, h2, h1⟩
    rw [List.find?_eq_none] at hf
    exact absurd (by simpa using And.intro h2 h1) (by simpa using hf e he)
  | some e =>
    have hp := List.find?_some hf
    simp only [decide_eq_true_eq] at hp
    have hm := List.mem_of_find?_eq_some hf
    refine ⟨hp.2, ?_⟩
    have hme : (e.1, e.2) ∈ edges := by simpa using hm
    rw [hp.1] at hme
    exact hme

theorem iterBack_mem {edges : List (Nat × Nat)} {remaining : List Nat} {s0 : Nat}
    (hstuck : ∀ w ∈ remaining, ∃ e ∈ edges, e.2 = w ∧ e.1 ∈ remaining)
    (hs0 : s0 ∈ remaining) :
    ∀ i, iterBack edges remaining s0 i ∈ remaining := by
  intro i
  induction i with
  | zero => exact hs0
  | succ n ih => exact (stepBack_spec hstuck ih).1

theorem iterBack_edge {edges : List (Nat × Nat)} {remaining : List Nat} {s0 : Nat}
    (hstuck : ∀ w ∈ remaining, ∃ e ∈ edges, e.2 = w ∧ e.1 ∈ remaining)
    (hs0 : s0 ∈ remaining) (i : Nat) :
    (iterBack edges remaining s0 (i + 1), iterBack edges remaining s0 i) ∈ edges :=
  (stepBack_spec hstuck (iterBack_mem hstuck hs0 i)).2

theorem iterBack_reaches {edges : List (Nat × Nat)} {remaining : List Nat} {s0 : Nat}
    (hstuck : ∀ w ∈ remaining, ∃ e ∈ edges, e.2 = w ∧ e.1 ∈ remaining)
    (hs0 : s0 ∈ remaining) :
    ∀ a b, a < b →
      Relation.TransGen (edgeRel edges)
        (iterBack edges remaining s0 b) (iterBack edges remaining s0 a) := by
  intro a b hab
  induction b with
  | zero => omega
  | succ n ih =>
    rcases Nat.lt_succ_iff_lt_or_eq.mp hab with h | h
    · exact Relation.TransGen.head (iterBack_edge hstuck hs0 n) (ih h)
    · subst h
      exact Relation.TransGen.single (iterBack_edge hstuck hs0 a)

theorem cycViaAux_spec {edges : List (Nat × Nat)} {remaining : List Nat} {s0 m : Nat}
    (hstuck : ∀ w ∈ remaining, ∃ e ∈ edges, e.2 = w ∧ e.1 ∈ remaining)
    (hs0 : s0 ∈ remaining) (hm : remaining.toFinset.card ≤ m) :
    Relation.TransGen (edgeRel edges)
      (cycViaAux edges remaining s0 m) (cycViaAux edges remaining s0 m) := by
  have hmaps : ∀ i ∈ Finset.range (m + 1),
      iterBack edges remaining s0 i ∈ remaining.toFinset := by
    intro i _
    exact List.mem_toFinset.mpr (iterBack_mem hstuck hs0 i)
  have hcard : remaining.toFinset.card < (Finset.range (m + 1)).card := by
    rw [Finset.card_range]
    omega
  obtain ⟨x, hx, y, hy, hxy, hfeq⟩ :=
    Finset.exists_ne_map_eq_of_card_lt_of_maps_to hcard hmaps
  obtain ⟨a0, b0, hab, hb0, heq⟩ : ∃ a b, a < b ∧ b < m + 1 ∧
      iterBack edges remaining s0 a = iterBack edges remaining s0 b := by
    rcases Nat.lt_trichotomy x y with h | h | h
    · exact ⟨x, y, h, Finset.mem_range.mp hy, hfeq⟩
    · exact absurd h hxy
    · exact ⟨y, x, h, Finset.mem_range.mp hx, hfeq.symm⟩
  unfold cycViaAux
  cases hfb : (List.range (m + 1)).find? (fun b =>
      (List.range b).any (fun a =>
        iterBack edges remaining s0 a == iterBack edges remaining s0 b)) with
  | none =>
    rw [List.find?_eq_none] at hfb
    have := hfb b0 (List.mem_range.mpr hb0)
    simp only [List.any_eq_true, List.mem_range, beq_iff_eq, not_exists, not_and] at this
    exact absurd heq (this a0 hab)
  | some b =>
    dsimp only
    have hpb := List.find?_some hfb
    simp only [List.any_eq_true, List.mem_range, beq_iff_eq] at hpb
    obtain ⟨a', ha'b, heq'⟩ := hpb
    cases hfa : (List.range b).find? (fun a =>
        iterBack edges remaining s0 a == iterBack edges remaining s0 b) with
    | none =>
      rw [List.find?_eq_none] at hfa
      have := hfa a' (List.mem_range.mpr ha'b)
      simp only [beq_iff_eq] at this
      exact absurd heq' this
    | some a =>
      have hpa := List.find?_some hfa
      rw [beq_iff_eq] at hpa
      have hab' : a < b := List.mem_range.mp (List.mem_of_find?_eq_some hfa)
      have hr := iterBack_reaches hstuck hs0 a b hab'
      rw [← hpa] at hr
      exact hr

theorem cycVia_spec {edges : List (Nat × Nat)} {remaining : List Nat}
    (hne : remaining ≠ [])
    (hstuck : ∀ w ∈ remaining, ∃ e ∈ edges, e.2 = w ∧ e.1 ∈ remaining) :
    Relation.TransGen (edgeRel edges) (cycVia edges remaining) (cycVia edges remaining) := by
  have hs0 : remaining.headD 0 ∈ remaining := by
    cases remaining with
    | nil => exact absurd rfl hne
    | cons a l => exact List.mem_cons_self _ _
  exact cycViaAux_spec hstuck hs0 (List.toFinset_card_le remaining)

theorem kahnAux_inl_spec (edges : List (Nat × Nat)) :
    ∀ fuel remaining order, remaining.length ≤ fuel →
      kahnAux edges fuel remaining = Sum.inl order →
      order.Perm remaining ∧
      (∀ u v, (u, v) ∈ edges → u ∈ remaining → v ∈ remaining →
        List.Sublist [u, v] order) := by
  intro fuel
  induction fuel with
  | zero =>
    intro remaining order hlen h
    cases remaining with
    | nil =>
      injection h with h
      subst h
      exact ⟨List.Perm.refl _, by intro u v _ hu _; simp at hu⟩
    | cons a l => simp at hlen
  | succ f ih =>
    intro remaining order hlen h
    cases remaining with
    | nil =>
      injection h with h
      subst h
      exact ⟨List.Perm.refl _, by intro u v _ hu _; simp at hu⟩
    | cons r rs =>
      unfold kahnAux at h
      cases hf : (r :: rs).find? (noIncoming edges (r :: rs)) with
      | none =>
        rw [hf] at h
        dsimp only at h
        exact absurd h (by simp)
      | some v =>
        rw [hf] at h
        dsimp only at h
        cases hrec : kahnAux edges f ((r :: rs).erase v) with
        | inr c =>
          rw [hrec] at h
          exact absurd h (by simp)
        | inl order' =>
          rw [hrec] at h
          dsimp only at h
          injection h with h
          subst h
          have hvmem : v ∈ (r :: rs) := List.mem_of_find?_eq_some hf
          have hlen' : ((r :: rs).erase v).length ≤ f := by
            rw [List.length_erase_of_mem hvmem]
            simp only [List.length_cons] at hlen ⊢
            omega
          obtain ⟨hperm, hedge⟩ := ih _ _ hlen' hrec
          have hnoinc := List.find?_some hf
          unfold noIncoming at hnoinc
          rw [decide_eq_true_eq] at hnoinc
          refine ⟨(hperm.cons v).trans (List.perm_cons_erase hvmem).symm, ?_⟩
          intro u w hew hu hw
          by_cases hwv : w = v
          · subst hwv
            exact absurd ⟨(u, w), hew, rfl, hu⟩ hnoinc
          · have hw' : w ∈ (r :: rs).erase v := (List.mem_erase_of_ne hwv).mpr hw
            by_cases huv : u = v
            · subst huv
              have hwo : w ∈ order' := hperm.mem_iff.mpr hw'
              exact List.Sublist.cons₂ u (List.singleton_sublist.mpr hwo)
            · have hu' : u ∈ (r :: rs).erase v := (List.mem_erase_of_ne huv).mpr hu
              exact List.Sublist.cons v (hedge u w hew hu' hw')

theorem kahnAux_inr_spec (edges : List (Nat × Nat)) :
    ∀ fuel remaining c, remaining.length ≤ fuel →
      kahnAux edges fuel remaining = Sum.inr c →
      Relation.TransGen (edgeRel edges) c c := by
  intro fuel
  induction fuel with
  | zero =>
    intro remaining c hlen h
    cases remaining with
    | nil => exact absurd h (by simp [kahnAux])
    | cons a l => simp at hlen
  | succ f ih =>
    intro remaining c hlen h
    cases remaining with
    | nil => exact absurd h (by simp [kahnAux])
    | cons r rs =>
      unfold kahnAux at h
      cases hf : (r :: rs).find? (noIncoming edges (r :: rs)) with
      | some v =>
        rw [hf] at h
        dsimp only at h
        cases hrec : kahnAux edges f ((r :: rs).erase v) with
        | inl order' =>
          rw [hrec] at h
          exact absurd h (by simp)
        | inr c' =>
          rw [hrec] at h
          dsimp only at h
          injection h with h
          subst h
          have hvmem : v ∈ (r :: rs) := List.mem_of_find?_eq_some hf
          have hlen' : ((r :: rs).erase v).length ≤ f := by
            rw [List.length_erase_of_mem hvmem]
            simp only [List.length_cons] at hlen ⊢
            omega
          exact ih _ _ hlen' hrec
      | none =>
        rw [hf] at h
        dsimp only at h
        injection h with h
        subst h
        have hstuck : ∀ w ∈ (r :: rs), ∃ e ∈ edges, e.2 = w ∧ e.1 ∈ (r :: rs) := by
          intro w hw
          have hnp := List.find?_eq_none.mp hf w hw
          unfold noIncoming at hnp
          simp only [decide_eq_true_eq] at hnp
          rw [not_not] at hnp
          exact hnp
        exact cycVia_spec (by simp) hstuck

theorem toposort_inl_spec {n : Nat} {edges : List (Nat × Nat)} {order : List Nat}
    (h : toposort n edges = Sum.inl order) :
    order.Perm (List.range n) ∧
    (∀ u v, (u, v) ∈ edges → u < n → v < n → List.Sublist [u, v] order) := by
  have hs := kahnAux_inl_spec edges n (List.range n) order (by simp) h
  exact ⟨hs.1, fun u v he hu hv =>
    hs.2 u v he (List.mem_range.mpr hu) (List.mem_range.mpr hv)⟩

theorem toposort_inr_spec {n : Nat} {edges : List (Nat × Nat)} {c : Nat}
    (h : toposort n edges = Sum.inr c) :
    Relation.TransGen (edgeRel edges) c c :=
  kahnAux_inr_spec edges n (List.range n) c (by simp) h

theorem sublist_pair_indexOf_lt {u v : Nat} {l : List Nat}
    (h : List.Sublist [u, v] l) (hnd : l.Nodup) :
    l.indexOf u < l.indexOf v := by
  induction l with
  | nil => cases h
  | cons a t ih =>
    have hand := List.nodup_cons.mp hnd
    cases h with
    | cons _ h' =>
      have hu : u ∈ t := h'.subset (by simp)
      have hv : v ∈ t := h'.subset (by simp)
      have hau : a ≠ u := fun he => hand.1 (he ▸ hu)
      have hav : a ≠ v := fun he => hand.1 (he ▸ hv)
      rw [List.indexOf_cons_ne _ hau, List.indexOf_cons_ne _ hav]
      exact Nat.succ_lt_succ (ih h' hand.2)
    | cons₂ _ h' =>
      have hv : v ∈ t := h'.subset (by simp)
      have huv : v ≠ u := fun he => hand.1 (he ▸ hv)
      rw [List.indexOf_cons_self]
      rw [List.indexOf_cons_ne _ huv.symm]
      exact Nat.succ_pos _

theorem toposort_reaches_indexOf {n : Nat} {edges : List (Nat × Nat)} {order : List Nat}
    (h : toposort n edges = Sum.inl order)
    (wf : ∀ e ∈ edges, e.1 < n ∧ e.2 < n) :
    ∀ u v, Relation.TransGen (edgeRel edges) u v →
      order.indexOf u < order.indexOf v := by
  obtain ⟨hperm, hedge⟩ := toposort_inl_spec h
  have hnd : order.Nodup := hperm.nodup_iff.mpr (List.nodup_range n)
  intro u v hr
  induction hr with
  | single he =>
    exact sublist_pair_indexOf_lt (hedge _ _ he (wf _ he).1 (wf _ he).2) hnd
  | tail _ hbc ih =>
    exact lt_trans ih (sublist_pair_indexOf_lt (hedge _ _ hbc (wf _ hbc).1 (wf _ hbc).2) hnd)

theorem toposort_acyclic {n : Nat} {edges : List (Nat × Nat)} {order : List Nat}
    (h : toposort n edges = Sum.inl order)
    (wf : ∀ e ∈ edges, e.1 < n ∧ e.2 < n) :
    ∀ v, ¬ Relation.TransGen (edgeRel edges) v v := by
  intro v hv
  exact lt_irrefl _ (toposort_reaches_indexOf h wf v v hv)

theorem toposort_inl_of_acyclic {n : Nat} {edges : List (Nat × Nat)}
    (acyc : ∀ v, ¬ Relation.TransGen (edgeRel edges) v v) :
    ∃ order, toposort n edges = Sum.inl order := by
  cases h : toposort n edges with
  | inl order => exact ⟨order, rfl⟩
  | inr c => exact absurd (toposort_inr_spec h) (acyc c)

/-- C1: for every well-formed acyclic dependency graph and every edge
`(u, v)` (package `u` a dependency of package `v`) with both endpoints
in the affected set `A`, the topological sort of the entire graph
succeeds, and in the publish order — the full sorted order filtered
down to `A`-membership, relative order preserved — `u` appears
strictly before `v` (both as a `[u, v]` subsequence and by index). -/
theorem publish_order_respects_edges (n : Nat) (edges : List (Nat × Nat)) (A : Nat → Bool)
    (u v : Nat)
    (wf : ∀ e ∈ edges, e.1 < n ∧ e.2 < n)
    (acyc : ∀ w, ¬ Relation.TransGen (edgeRel edges) w w)
    (he : (u, v) ∈ edges) (hu : A u = true) (hv : A v = true) :
    ∃ order, toposort n edges = Sum.inl order ∧
      List.Sublist [u, v] (order.filter A) ∧
      (order.filter A).indexOf u < (order.filter A).indexOf v ∧
      (∀ (f : Nat → String) (p : String → Bool), (∀ i, A i = p (f i)) →
        List.Sublist [f u, f v] ((order.map f).filter p)) := by
  obtain ⟨order, hord⟩ := toposort_inl_of_acyclic acyc
  obtain ⟨hperm, hedge⟩ := toposort_inl_spec hord
  have hsub : List.Sublist [u, v] order := hedge u v he (wf _ he).1 (wf _ he).2
  have hsubf : List.Sublist ([u, v].filter A) (order.filter A) := hsub.filter A
  rw [show [u, v].filter A = [u, v] by simp [hu, hv]] at hsubf
  have hnd : (order.filter A).Nodup := (hperm.nodup_iff.mpr (List.nodup_range n)).filter A
  refine ⟨order, hord, hsubf, sublist_pair_indexOf_lt hsubf hnd, ?_⟩
  intro f p hfp
  rw [List.filter_map, show order.filter (p ∘ f) = order.filter A from
    List.filter_congr (fun i _ => (hfp i).symm)]
  have := hsubf.map f
  simpa using this

theorem publish_order_respects_edges_witness :
    ∃ order, toposort 3 [(0, 1), (1, 2), (0, 2)] = Sum.inl order ∧
      List.Sublist [0, 2] (order.filter (fun i => decide (i ≠ 1))) ∧
      (order.filter (fun i => decide (i ≠ 1))).indexOf 0 <
        (order.filter (fun i => decide (i ≠ 1))).indexOf 2 := by
  have h := publish_order_respects_edges 3 [(0, 1), (1, 2), (0, 2)]
    (fun i => decide (i ≠ 1)) 0 2 (by decide)
    (toposort_acyclic
      (show toposort 3 [(0, 1), (1, 2), (0, 2)] = Sum.inl [0, 1, 2] by decide) (by decide))
    (by decide) (by decide) (by decide)
  obtain ⟨order, h1, h2, h3, _⟩ := h
  exact ⟨order, h1, h2, h3⟩

/-! ## Cycle handling at the plan level -/

theorem planPublish_cycle {pkgs : List (String × Manifest)} {seeds : List String}
    {edges : List (Nat × Nat)} {c : Nat}
    (hed : buildEdges (mkNodeMap pkgs) pkgs = some edges)
    (haff : affectedNames (mkNodeMap pkgs) (mkNodes pkgs) edges seeds ≠ ∅)
    (hts : toposort (mkNodes pkgs).length edges = Sum.inr c) :
    planPublish pkgs seeds = PlanResult.cycleErr (nodeName (mkNodes pkgs) c) := by
  unfold planPublish
  rw [hed]
  dsimp only
  rw [if_neg haff, hts]

def c4PkgA : Manifest :=
  { projectName := "a", projectVersion := "1.0.0",
    dependencies := some [("b", DepVal.inlineTable [("path", "../b")])], rest := "" }

def c4PkgB : Manifest :=
  { projectName := "b", projectVersion := "1.0.0",
    dependencies := some [("a", DepVal.inlineTable [("path", "../a")])], rest := "" }

def c4Pkgs : List (String × Manifest) := [("a", c4PkgA), ("b", c4PkgB)]

/-- C4 counterexample: the dependency graph of `c4Pkgs` contains a cycle
(nodes 0 and 1 depend on each other), yet with the seed set `["nope"]`
— a seed set whose only member is unknown — the run terminates
successfully with "nothing to publish" before the topological sort
executes: it does not fail and reports no cycle, refuting "the run
fails unconditionally, for every seed set". -/
theorem cycle_unknown_seed_cex :
    buildEdges (mkNodeMap c4Pkgs) c4Pkgs = some [(1, 0), (0, 1)] ∧
    Relation.TransGen (edgeRel [(1, 0), (0, 1)]) 0 0 ∧
    planPublish c4Pkgs ["nope"] = PlanResult.nothingToPublish ∧
    runOrchestrator (fun _ => PubOutcome.success) c4Pkgs ["nope"] =
      (initLoopState c4Pkgs, none) := by
  refine ⟨by decide, ?_, by decide, by decide⟩
  have h01 : edgeRel [(1, 0), (0, 1)] 0 1 := by decide
  have h10 : edgeRel [(1, 0), (0, 1)] 1 0 := by decide
  exact Relation.TransGen.head h01 (Relation.TransGen.single h10)

/-- C4 (amended): whenever the dependency graph contains a cycle and at
least one seed names a known package, the run fails before any publish
side effect: the planning phase reports a cycle error naming a package
whose node participates in a cycle, no publish order is produced, and
— for every possible behaviour of the external publish tool — the
orchestrator performs no invocation, no manifest mutation and no
write, ending with the cycle error. -/
theorem cycle_fails_run (pkgs : List (String × Manifest)) (seeds : List String)
    (edges : List (Nat × Nat)) (s : String) (outcome : String → PubOutcome)
    (hed : buildEdges (mkNodeMap pkgs) pkgs = some edges)
    (hcyc : ∃ w, Relation.TransGen (edgeRel edges) w w)
    (hs : s ∈ seeds)
    (hknown : (lookupKey s (mkNodeMap pkgs)).isSome) :
    ∃ c, Relation.TransGen (edgeRel edges) c c ∧
      planPublish pkgs seeds = PlanResult.cycleErr (nodeName (mkNodes pkgs) c) ∧
      runOrchestrator outcome pkgs seeds =
        (initLoopState pkgs, some (RunError.cycleDetected (nodeName (mkNodes pkgs) c))) := by
  rcases Option.isSome_iff_exists.mp hknown with ⟨i, hi⟩
  have haffmem : s ∈ affectedNames (mkNodeMap pkgs) (mkNodes pkgs) edges seeds := by
    rw [mem_affectedNames]
    exact ⟨s, hs, i, i, hi, mem_reachSet_self edges i, (mkNodeMap_lookup_name hi).symm⟩
  have haff : affectedNames (mkNodeMap pkgs) (mkNodes pkgs) edges seeds ≠ ∅ := by
    intro hempty
    rw [hempty] at haffmem
    simp at haffmem
  have hwf : ∀ e ∈ edges, e.1 < (mkNodes pkgs).length ∧ e.2 < (mkNodes pkgs).length := by
    intro e he
    have hb := buildEdges_wf hed e he
    simpa [mkNodes] using hb
  cases hts : toposort (mkNodes pkgs).length edges with
  | inl order =>
    rcases hcyc with ⟨w, hw⟩
    exact absurd hw (toposort_acyclic hts hwf w)
  | inr c =>
    have hplan := planPublish_cycle hed haff hts
    refine ⟨c, toposort_inr_spec hts, hplan, ?_⟩
    unfold runOrchestrator
    rw [hplan]

theorem cycle_fails_run_witness :
    ∃ c, Relation.TransGen (edgeRel [(1, 0), (0, 1)]) c c ∧
      planPublish c4Pkgs ["a"] = PlanResult.cycleErr (nodeName (mkNodes c4Pkgs) c) ∧
      runOrchestrator (fun _ => PubOutcome.success) c4Pkgs ["a"] =
        (initLoopState c4Pkgs, some (RunError.cycleDetected (nodeName (mkNodes c4Pkgs) c))) :=
 by
  have h01 : edgeRel [(1, 0), (0, 1)] 0 1 := by decide
  have h10 : edgeRel [(1, 0), (0, 1)] 1 0 := by decide
  exact cycle_fails_run c4Pkgs ["a"] [(1, 0), (0, 1)] "a" (fun _ => PubOutcome.success)
    (by decide)
    ⟨0, Relation.TransGen.head h01 (Relation.TransGen.single h10)⟩
    (by decide) (by decide)

/-! ## Declared name vs directory name -/

theorem lookupKey_isSome_of_mem_fst {β : Type} {l : List (String × β)} {e : String × β}
    (h : e ∈ l) : (lookupKey e.1 l).isSome := by
  induction l with
  | nil => cases h
  | cons a t ih =>
    by_cases hae : a.1 = e.1
    · simp [lookupKey, hae]
    · rcases List.mem_cons.mp h with rfl | h'
      · exact absurd rfl hae
      · simp only [lookupKey, hae, if_false]
      
      
        exact ih h'

theorem planPublish_order_inv {pkgs : List (String × Manifest)} {seeds : List String}
    {names : List String}
    (h : planPublish pkgs seeds = PlanResult.order names) :
    ∃ edges order,
      buildEdges (mkNodeMap pkgs) pkgs = some edges ∧
      toposort (mkNodes pkgs).length edges = Sum.inl order ∧
      names = (order.map (fun i => nodeName (mkNodes pkgs) i)).filter
        (fun s => decide (s ∈ affectedNames (mkNodeMap pkgs) (mkNodes pkgs) edges seeds)) := by
  unfold planPublish at h
  cases hed : buildEdges (mkNodeMap pkgs) pkgs with
  | none =>
    rw [hed] at h
    exact absurd h (by simp)
  | some edges =>
    rw [hed] at h
    dsimp only at h
    by_cases haff : affectedNames (mkNodeMap pkgs) (mkNodes pkgs) edges seeds = ∅
    · rw [if_pos haff] at h
      exact absurd h (by simp)
    · rw [if_neg haff] at h
      cases hts : toposort (mkNodes pkgs).length edges with
      | inr c =>
        rw [hts] at h
        exact absurd h (by simp)
      | inl order =>
        rw [hts] at h
        dsimp only at h
        by_cases hnil : ((order.map (fun i => nodeName (mkNodes pkgs) i)).filter
            (fun s => decide
              (s ∈ affectedNames (mkNodeMap pkgs) (mkNodes pkgs) edges seeds))) = []
        · rw [if_pos hnil] at h
          exact absurd h (by simp)
        · rw [if_neg hnil] at h
          injection h with h
          exact ⟨edges, order, rfl, hts, h.symm⟩

theorem buildEdges_none_iff (nm : List (String × Nat)) :
    ∀ sub : List (String × Manifest),
      buildEdges nm sub = none ↔
        ∃ e ∈ sub, e.2.dependencies ≠ none ∧ lookupKey e.1 nm = none := by
  intro sub
  induction sub with
  | nil => simp [buildEdges]
  | cons e rest ih =>
    obtain ⟨dn, m⟩ := e
    cases hd : m.dependencies with
    | none =>
      unfold buildEdges
      rw [hd, ih]
      constructor
      · rintro ⟨e', he', hne, hlk⟩
        exact ⟨e', List.mem_cons_of_mem _ he', hne, hlk⟩
      · rintro ⟨e', he', hne, hlk⟩
        rcases List.mem_cons.mp he' with rfl | h'
        · exact absurd hd hne
        · exact ⟨e', h', hne, hlk⟩
    | some deps =>
      unfold buildEdges
      rw [hd]
      cases hlk : lookupKey dn nm with
      | none =>
        constructor
        · intro _
          exact ⟨(dn, m), List.mem_cons_self _ _, by simp [hd], hlk⟩
        · intro _
          rfl
      | some i =>
        rw [Option.map_eq_none', ih]
        constructor
        · rintro ⟨e', he', hne, hl⟩
          exact ⟨e', List.mem_cons_of_mem _ he', hne, hl⟩
        · rintro ⟨e', he', hne, hl⟩
          rcases List.mem_cons.mp he' with rfl | h'
          · dsimp only at hl
            rw [hlk] at hl
            exact absurd hl (by simp)
          · exact ⟨e', h', hne, hl⟩

/-- C9 (amended): both names are tracked — graph nodes are keyed by the
declared manifest name, disk/manifest operations by the directory name —
but the lookups that bridge the two are only guaranteed to succeed when
the two names agree: (i) when every discovered package's declared name
equals its directory name, edge construction succeeds and the
published-version lookup succeeds for every package name in a resolved
publish order; (ii) edge construction fails (the modelled
`node_map[project_name]` panic of main.rs line 58) exactly when some
discovered package has a dependencies table and a directory name that is
no package's declared name — so a mismatched package with no
dependencies table, or whose directory name coincides with some declared
name, does not trigger the panic, while the counterexample's mismatched
package aborts the run. -/
theorem names_align_lookups_ok (pkgs pkgs' : List (String × Manifest)) (seeds : List String)
    (heq : ∀ e ∈ pkgs, e.2.projectName = e.1) :
    ((∃ edges, buildEdges (mkNodeMap pkgs) pkgs = some edges) ∧
     (∀ names, planPublish pkgs seeds = PlanResult.order names →
       ∀ p ∈ names, (lookupKey p pkgs).isSome)) ∧
    (buildEdges (mkNodeMap pkgs') pkgs' = none ↔
      ∃ e ∈ pkgs', e.2.dependencies ≠ none ∧ lookupKey e.1 (mkNodeMap pkgs') = none) := by
  refine ⟨⟨?_, ?_⟩, buildEdges_none_iff (mkNodeMap pkgs') pkgs'⟩
  · refine buildEdges_total (mkNodeMap pkgs) pkgs ?_
    intro e he
    exact Or.inl (mkNodeMap_mem_isSome (List.mem_map.mpr ⟨e, he, heq e he⟩))
  · intro names hplan p hp
    rcases planPublish_order_inv hplan with ⟨edges, order, _, hts, rfl⟩
    rcases List.mem_filter.mp hp with ⟨hpm, _⟩
    rcases List.mem_map.mp hpm with ⟨i, hio, rfl⟩
    obtain ⟨hperm, _⟩ := toposort_inl_spec hts
    have hilt : i < (mkNodes pkgs).length :=
      List.mem_range.mp (hperm.mem_iff.mp hio)
    have hnn : nodeName (mkNodes pkgs) i ∈ mkNodes pkgs := by
      unfold nodeName
      rw [List.getD_eq_getElem?_getD, List.getElem?_eq_getElem hilt]
      exact List.getElem_mem _
    rcases List.mem_map.mp hnn with ⟨e, hepkgs, hename⟩
    rw [← hename, heq e hepkgs]
    exact lookupKey_isSome_of_mem_fst hepkgs

def c9Pkgs : List (String × Manifest) :=
  [("a-dir", { projectName := "a", projectVersion := "0.1.0",
               dependencies := some [], rest := "" })]

/-- C9 counterexample: a discovered package whose declared name `"a"`
differs from its directory name `"a-dir"` (and which has a dependencies
table) makes the edge-construction index `node_map[project_name]` miss:
the run aborts with the modelled panic instead of running through, so
the bridging lookups do fail. -/
theorem name_mismatch_cex :
    (∀ e ∈ c9Pkgs, e.2.projectName ≠ e.1) ∧
    planPublish c9Pkgs ["a"] = PlanResult.mismatch ∧
    runOrchestrator (fun _ => PubOutcome.success) c9Pkgs ["a"] =
      (initLoopState c9Pkgs, some RunError.mismatch) := by
  refine ⟨by decide, by decide, by decide⟩

def c9AlignedPkgs : List (String × Manifest) :=
  [("a", { projectName := "a", projectVersion := "1.0.0",
           dependencies := none, rest := "" }),
   ("b", { projectName := "b", projectVersion := "1.0.0",
           dependencies := some [("a", DepVal.inlineTable [("path", "../a")])], rest := "" })]

theorem names_align_lookups_ok_witness :
    ((∃ edges, buildEdges (mkNodeMap c9AlignedPkgs) c9AlignedPkgs = some edges) ∧
     (∀ names, planPublish c9AlignedPkgs ["a"] = PlanResult.order names →
       ∀ p ∈ names, (lookupKey p c9AlignedPkgs).isSome)) ∧
    (buildEdges (mkNodeMap c9Pkgs) c9Pkgs = none ↔
      ∃ e ∈ c9Pkgs, e.2.dependencies ≠ none ∧ lookupKey e.1 (mkNodeMap c9Pkgs) = none) :=
  names_align_lookups_ok c9AlignedPkgs c9Pkgs ["a"] (by decide)
